import Mathlib

/-!
Shallow embedding of the MongoFileTree class from src/index.ts of the
GridFS-file-tree-manager repository.  MongoDB collections are modelled as
Lean lists of documents in collection order (the order used by findOne /
find().toArray()[0] / findOneAndUpdate, which act on the first match).
Document metadata is modelled as an association list of string keys and
JavaScript-like scalar values, mirroring the untyped metadata objects the
code stores in GridFS.  Mongo regular-expression queries built as
RegExp("^" + path) are modelled as string-prefix tests, and the unanchored
cwd.match(path) test in deleteFolder as a substring test; both are exact
for paths free of regex metacharacters, which covers every path used in
the theorems below.
-/

namespace GridFSTree

/-- JavaScript-like scalar values stored in MongoDB document fields. -/
inductive JsValue where
  | vStr (s : String)
  | vBool (b : Bool)
  | vNum (n : Int)
  | vNull
deriving DecidableEq, Repr

/-- JavaScript truthiness of a field value, as used by the optional-chaining
guards such as newMetadata?.path in changeFileMetadata. -/
def jsTruthy : JsValue → Bool
  | .vStr s => decide (s ≠ "")
  | .vBool b => b
  | .vNum n => decide (n ≠ 0)
  | .vNull => false

/-- JavaScript string coercion, as performed by string concatenation in
expressions like parentDirectory + "/" + newName. -/
def jsToString : JsValue → String
  | .vStr s => s
  | .vBool b => if b then "true" else "false"
  | .vNum n => toString n
  | .vNull => "null"

/-- String coercion of a possibly-absent field, as JavaScript performs when
concatenating a possibly-undefined value into a string. -/
def jsConcatField : Option JsValue → String
  | some v => jsToString v
  | none => "undefined"

/-- The non-whitespace characters matched by the validation pattern used in
createFolder, uploadFile, changeFileName and changeFolderName: a backslash
alternative plus the character class of the slash, dollar, percent, question
mark, at sign, double quote, single quote, exclamation mark, angle brackets,
asterisk, ampersand, braces, hash, equals, backtick, vertical bar, colon and
plus characters. -/
def forbiddenList : List Char :=
  ['\\', '/', '$', '%', '?', '@', '"', Char.ofNat 39, '!', '>', '<', '*', '&',
   Char.ofNat 123, Char.ofNat 125, '#', '=', Char.ofNat 96, '|', ':', '+']

/-- The whitespace characters matched by a JavaScript regex whitespace
class: tab, line feed, vertical tab, form feed, carriage return, space,
no-break space, ogham space mark, the en-quad through hair-space range, line
separator, paragraph separator, narrow no-break space, medium mathematical
space, ideographic space, and the byte-order mark. -/
def jsWhitespaceList : List Char :=
  [Char.ofNat 9, Char.ofNat 10, Char.ofNat 11, Char.ofNat 12, Char.ofNat 13,
   Char.ofNat 32, Char.ofNat 160, Char.ofNat 5760,
   Char.ofNat 8192, Char.ofNat 8193, Char.ofNat 8194, Char.ofNat 8195,
   Char.ofNat 8196, Char.ofNat 8197, Char.ofNat 8198, Char.ofNat 8199,
   Char.ofNat 8200, Char.ofNat 8201, Char.ofNat 8202,
   Char.ofNat 8232, Char.ofNat 8233, Char.ofNat 8239, Char.ofNat 8287,
   Char.ofNat 12288, Char.ofNat 65279]

/-- A character is forbidden in folder and file names when the validation
pattern of the source matches it. -/
def isForbiddenChar (c : Char) : Bool :=
  forbiddenList.contains c || jsWhitespaceList.contains c

/-- The leftmost character of a name matched by the validation pattern; this
models name.match(pattern)[0], since every match of the pattern is a single
character and JavaScript match returns the leftmost one. -/
def firstForbidden (s : String) : Option Char :=
  s.toList.find? isForbiddenChar

/-- Prefix test on strings through their character lists. -/
def strHasPref (p s : String) : Bool :=
  p.toList.isPrefixOf s.toList

/-- A MongoDB subdocument, as an association list in field order. -/
abbrev Metadata := List (String × JsValue)

/-- Field access on a document. -/
def mGet : Metadata → String → Option JsValue
  | [], _ => none
  | kv :: rest, k => if kv.1 = k then some kv.2 else mGet rest k

/-- Mongo set of a single field: replaces the field in place when present,
otherwise appends it, exactly as a dollar-set update or a JavaScript object
spread assigns one key. -/
def mSet : Metadata → String → JsValue → Metadata
  | [], k, v => [(k, v)]
  | kv :: rest, k, v =>
    if kv.1 = k then (k, v) :: rest else kv :: mSet rest k v

/-- Mongo unset of a single field. -/
def mUnset (m : Metadata) (k : String) : Metadata :=
  m.filter (fun kv => decide (kv.1 ≠ k))

/-- A document of the files collection of the GridFS bucket: identifier,
top-level filename, and the metadata subdocument holding parentDirectory,
path, isLatest and any custom fields. -/
structure FileRecord where
  id : Nat
  filename : String
  metadata : Metadata
deriving DecidableEq, Repr

/-- A document of the folder-storage collection. -/
structure Folder where
  id : Nat
  name : String
  path : String
  parentDirectory : String
deriving DecidableEq, Repr

/-- The state a MongoFileTree instance owns or reaches through its client:
the root name (the folder collection name), the current working directory,
the folder collection, the files collection of the bucket, and a counter
supplying fresh ObjectIds. -/
structure TreeState where
  folderCollectionName : String
  currentWorkingDirectory : String
  folders : List Folder
  files : List FileRecord
  nextId : Nat
deriving DecidableEq, Repr

/-- Query clause metadata.path equals the given string. -/
def hasPath (r : FileRecord) (p : String) : Bool :=
  decide (mGet r.metadata "path" = some (.vStr p))

/-- Query clause metadata.isLatest equals true. -/
def isLatestTrue (r : FileRecord) : Bool :=
  decide (mGet r.metadata "isLatest" = some (.vBool true))

/-- The query clause metadata.path equals the given string, keyed by the
path first, for filtering a collection by path. -/
def atPath (p : String) (r : FileRecord) : Bool :=
  hasPath r p

/-- Query clause metadata.parentDirectory matches RegExp("^" + folderPath):
a Mongo regex only matches string fields, and an anchored literal pattern
matches exactly the strings having it as a prefix. -/
def parentRawMatch (r : FileRecord) (folderPath : String) : Bool :=
  match mGet r.metadata "parentDirectory" with
  | some (.vStr s) => strHasPref folderPath s
  | _ => false

/-- Occurrence of a pattern as a contiguous run inside a character list. -/
def listInfixCheck (pat : List Char) : List Char → Bool
  | [] => pat.isPrefixOf ([] : List Char)
  | c :: rest => pat.isPrefixOf (c :: rest) || listInfixCheck pat rest

/-- The unanchored JavaScript test cwd.match(folderPath) used by
deleteFolder, for a pattern free of regex metacharacters: does the pattern
occur anywhere inside the string. -/
def strIncludes (hay pat : String) : Bool :=
  listInfixCheck pat.toList hay.toList

/-- Replacement of the first occurrence of a pattern inside a character
list, as the Mongo aggregation operator replaceOne performs on strings. -/
def listReplaceOne (find repl : List Char) : List Char → List Char
  | [] => if find.isEmpty then repl else []
  | c :: rest =>
    if find.isPrefixOf (c :: rest) then repl ++ (c :: rest).drop find.length
    else c :: listReplaceOne find repl rest

/-- String form of the Mongo replaceOne aggregation operator. -/
def strReplaceOne (input find repl : String) : String :=
  String.mk (listReplaceOne find.toList repl.toList input.toList)

/-- The errors the class rejects with, one constructor per distinct message
template of the source. -/
inductive TreeError where
  | folderExists
  | folderNameExists (name : String)
  | invalidChar (c : Char)
  | folderNotFound (path : String)
  | fileNotFound (path : String)
  | cannotDeleteCWD (cwd : String)
  | cannotRenameRoot
  | missingName
  | missingChunkSize
  | invalidReturnType
  | reservedPathField
  | reservedParentField
  | reservedIsLatestField
deriving DecidableEq, Repr

/-- Update of the first document matching a query, as findOneAndUpdate and
updateOne perform. -/
def updateFirstMatching {α : Type} (q : α → Bool) (f : α → α) : List α → List α
  | [] => []
  | x :: rest => if q x then f x :: rest else x :: updateFirstMatching q f rest

/-- Removal of the first document matching a query, as deleteOne performs. -/
def removeFirstMatching {α : Type} (q : α → Bool) : List α → List α
  | [] => []
  | x :: rest => if q x then rest else x :: removeFirstMatching q rest

/-- The createFolder method: computes the path under the current working
directory, rejects when a folder with that path exists, then rejects on the
first forbidden character of the name, then inserts the folder document and
resolves with its insert result. -/
def createFolder (st : TreeState) (folderName : String) :
    Except TreeError (TreeState × Nat) :=
  let path := st.currentWorkingDirectory ++ "/" ++ folderName
  if st.folders.any (fun f => decide (f.path = path)) then
    .error .folderExists
  else
    match firstForbidden folderName with
    | some c => .error (.invalidChar c)
    | none =>
      let fld : Folder :=
        ⟨st.nextId, folderName, path, st.currentWorkingDirectory⟩
      .ok ({ st with folders := st.folders ++ [fld], nextId := st.nextId + 1 },
           st.nextId)

/-- The getFileReadStream method: finds the first record whose metadata.path
is the given path and whose metadata.isLatest is true, rejects naming the
path when there is none, and otherwise resolves with a download stream of
that record; the resolved record stands for the stream of its content.  The
method reads the bucket and never writes, which the state-free result type
records. -/
def getFileReadStream (st : TreeState) (filePath : String) :
    Except TreeError FileRecord :=
  match st.files.find? (fun r => hasPath r filePath && isLatestTrue r) with
  | none => .error (.fileNotFound filePath)
  | some r => .ok r

/-- The valid returnType arguments of downloadFolder. -/
def validReturnTypes : List String :=
  ["base64", "nodebuffer", "array", "uint8array", "arraybuffer", "blob",
   "binarystring"]

/-- The bucket query shared by downloadFolder and deleteFolder: the records
whose metadata.isLatest is true and whose metadata.parentDirectory matches
RegExp("^" + folderPath). -/
def latestFilesUnderRaw (files : List FileRecord) (folderPath : String) :
    List FileRecord :=
  files.filter (fun r => isLatestTrue r && parentRawMatch r folderPath)

/-- The zip entry name downloadFolder gives a file: its metadata.path with
the first folderPath.length + 1 characters sliced off. -/
def zipEntryName (folderPath : String) (r : FileRecord) : String :=
  String.mk ((jsConcatField (mGet r.metadata "path")).toList.drop
    (folderPath.length + 1))

/-- The downloadFolder method, up to the zip encoding itself: rejects when
the folder is absent and not the root, rejects an invalid returnType, and
otherwise produces the entry name and record identifier of every file of
the enumerated set. -/
def downloadFolder (st : TreeState) (folderPath returnType : String) :
    Except TreeError (List (String × Nat)) :=
  if st.folders.all (fun f => decide (f.path ≠ folderPath))
      && decide (folderPath ≠ st.folderCollectionName) then
    .error (.folderNotFound folderPath)
  else if !(validReturnTypes.contains returnType) then
    .error .invalidReturnType
  else
    .ok ((latestFilesUnderRaw st.files folderPath).map
      (fun r => (zipEntryName folderPath r, r.id)))

/-- The options argument of uploadFile; the readable-stream argument has no
bearing on the namespace state and is not modelled. -/
structure FileOptions where
  name : String
  chunkSize : Nat
  customMetadata : Metadata
deriving DecidableEq, Repr

/-- Demotion of a prior latest version: findOneAndUpdate on the query of
metadata.path equal to the given path and metadata.isLatest true, setting
metadata.isLatest to false on the first matching record. -/
def demoteRec (r : FileRecord) : FileRecord :=
  { r with metadata := mSet r.metadata "isLatest" (.vBool false) }

/-- The collection after the demotion step of uploadFile. -/
def demoteFirstLatest : List FileRecord → String → List FileRecord
  | [], _ => []
  | r :: rest, p =>
    if hasPath r p && isLatestTrue r then demoteRec r :: rest
    else r :: demoteFirstLatest rest p

/-- The metadata object literal of the upload stream before the custom
metadata spread: parentDirectory, path, then isLatest true. -/
def baseUploadMetadata (cwd path : String) : Metadata :=
  [("parentDirectory", .vStr cwd), ("path", .vStr path),
   ("isLatest", .vBool true)]

/-- A JavaScript object spread of custom fields into a base object: later
keys override earlier ones in place. -/
def spreadInto (base : Metadata) (custom : Metadata) : Metadata :=
  custom.foldl (fun acc kv => mSet acc kv.1 kv.2) base

/-- The uploadFile method: rejects an empty name (a falsy options.name) and
a zero chunk size, rejects on the first forbidden character of the name,
then demotes the first latest record at the target path and appends the new
record with isLatest true, resolving with its identifier. -/
def uploadFile (st : TreeState) (opts : FileOptions) :
    Except TreeError (TreeState × Nat) :=
  if decide (opts.name = "") then .error .missingName
  else if decide (opts.chunkSize = 0) then .error .missingChunkSize
  else
    match firstForbidden opts.name with
    | some c => .error (.invalidChar c)
    | none =>
      let path := st.currentWorkingDirectory ++ "/" ++ opts.name
      let files1 := demoteFirstLatest st.files path
      let newRec : FileRecord :=
        ⟨st.nextId, opts.name,
         spreadInto (baseUploadMetadata st.currentWorkingDirectory path)
           opts.customMetadata⟩
      .ok ({ st with files := files1 ++ [newRec], nextId := st.nextId + 1 },
           st.nextId)

/-- A sequence of uploadFile calls, each started after the previous one
completed, stopping at the first rejection. -/
def uploadSeq : TreeState → List FileOptions → Except TreeError TreeState
  | st, [] => .ok st
  | st, o :: os =>
    match uploadFile st o with
    | .error e => .error e
    | .ok (st1, _) => uploadSeq st1 os

/-- The changeFileName method: rejects naming the path when no record has
the given metadata.path, rejects on the first forbidden character of the
new name, and otherwise reads parentDirectory from the first version and
rewrites metadata.path and filename on every record sharing the old path. -/
def changeFileName (st : TreeState) (newName filePath : String) :
    Except TreeError TreeState :=
  let allFileVersions := st.files.filter (fun r => hasPath r filePath)
  if allFileVersions.isEmpty then .error (.fileNotFound filePath)
  else
    match firstForbidden newName with
    | some c => .error (.invalidChar c)
    | none =>
      let pd := allFileVersions.head?.bind
        (fun r => mGet r.metadata "parentDirectory")
      let newPath := jsConcatField pd ++ "/" ++ newName
      .ok { st with files := st.files.map (fun r =>
        if hasPath r filePath then
          { r with filename := newName,
                   metadata := mSet r.metadata "path" (.vStr newPath) }
        else r) }

/-- Truthiness of a key of an optional upsert object, modelling the guard
newMetadata?.key of changeFileMetadata: absent objects and absent or falsy
values all read as false. -/
def truthyField (m : Option Metadata) (k : String) : Bool :=
  match m with
  | none => false
  | some l =>
    match mGet l k with
    | some v => jsTruthy v
    | none => false

/-- Membership of a key in an optional delete list, modelling the guard
deleteFields?.includes(key). -/
def includesField (l : Option (List String)) (k : String) : Bool :=
  match l with
  | none => false
  | some xs => xs.contains k

/-- Application of an upsert object to a record's metadata subdocument, one
dollar-set with a metadata-prefixed field per key of the object. -/
def applyUpsert (r : FileRecord) (nm : Metadata) : FileRecord :=
  { r with metadata := spreadInto r.metadata nm }

/-- Application of a delete list to a record's metadata subdocument, one
dollar-unset with a metadata-prefixed field per listed key. -/
def applyUnset (r : FileRecord) (ks : List String) : FileRecord :=
  { r with metadata := ks.foldl mUnset r.metadata }

/-- The changeFileMetadata method: rejects with a distinct error whenever
the guard of a reserved key fires on a truthy upsert value or a listed
delete key; otherwise applies the upsert and the deletions either to every
record sharing the path, or only to the first record that is latest at the
path. -/
def changeFileMetadata (st : TreeState) (filePath : String)
    (newMetadata : Option Metadata) (deleteFields : Option (List String))
    (changeForAllVersions : Bool) : Except TreeError TreeState :=
  if truthyField newMetadata "path" || includesField deleteFields "path" then
    .error .reservedPathField
  else if truthyField newMetadata "parentDirectory"
      || includesField deleteFields "parentDirectory" then
    .error .reservedParentField
  else if truthyField newMetadata "isLatest"
      || includesField deleteFields "isLatest" then
    .error .reservedIsLatestField
  else if changeForAllVersions then
    let files1 := match newMetadata with
      | some nm => st.files.map (fun r =>
          if hasPath r filePath then applyUpsert r nm else r)
      | none => st.files
    let files2 := match deleteFields with
      | some ks => files1.map (fun r =>
          if hasPath r filePath then applyUnset r ks else r)
      | none => files1
    .ok { st with files := files2 }
  else
    let files1 := match newMetadata with
      | some nm => updateFirstMatching
          (fun r => isLatestTrue r && hasPath r filePath)
          (fun r => applyUpsert r nm) st.files
      | none => st.files
    let files2 := match deleteFields with
      | some ks => updateFirstMatching
          (fun r => isLatestTrue r && hasPath r filePath)
          (fun r => applyUnset r ks) files1
      | none => files1
    .ok { st with files := files2 }

/-- Rewrite of one string-valued metadata field by the replaceOne
aggregation operator, as the cascading updates of changeFolderName issue. -/
def replaceOneField (m : Metadata) (k find repl : String) : Metadata :=
  match mGet m k with
  | some (.vStr s) => mSet m k (.vStr (strReplaceOne s find repl))
  | _ => m

/-- The changeFolderName method: rejects renaming the root, rejects naming
the path when the folder is absent, rejects when the new path is occupied,
rejects on the first forbidden character of the new name; then updates the
target folder's path and name, then rewrites path and parentDirectory by
replaceOne and sets name to the new name on every folder whose
parentDirectory matches RegExp("^" + folderPath), and rewrites
metadata.path and metadata.parentDirectory the same way on every file
record whose metadata.parentDirectory matches that pattern. -/
def changeFolderName (st : TreeState) (newName folderPath : String) :
    Except TreeError TreeState :=
  if decide (folderPath = st.folderCollectionName) then
    .error .cannotRenameRoot
  else
    match st.folders.find? (fun f => decide (f.path = folderPath)) with
    | none => .error (.folderNotFound folderPath)
    | some topFolder =>
      let newPath := topFolder.parentDirectory ++ "/" ++ newName
      if st.folders.any (fun f => decide (f.path = newPath)) then
        .error (.folderNameExists newName)
      else
        match firstForbidden newName with
        | some c => .error (.invalidChar c)
        | none =>
          let folders1 := updateFirstMatching
            (fun f => decide (f.path = folderPath))
            (fun f => { f with path := newPath, name := newName }) st.folders
          let folders2 := folders1.map (fun f =>
            if strHasPref folderPath f.parentDirectory then
              { f with
                path := strReplaceOne f.path folderPath newPath,
                parentDirectory :=
                  strReplaceOne f.parentDirectory folderPath newPath,
                name := newName }
            else f)
          let files2 := st.files.map (fun r =>
            if parentRawMatch r folderPath then
              { r with metadata :=
                  (replaceOneField
                    (replaceOneField r.metadata "path" folderPath newPath)
                    "parentDirectory" folderPath newPath) }
            else r)
          .ok { st with folders := folders2, files := files2 }

/-- The changeDirectory method: resolves the path absolutely or against the
current working directory, rejects naming the resolved path when no folder
has it and it is not the root, and otherwise stores it as the current
working directory. -/
def changeDirectory (st : TreeState) (path : String) (isRelative : Bool) :
    Except TreeError TreeState :=
  let absolutePath :=
    if isRelative then st.currentWorkingDirectory ++ "/" ++ path else path
  if st.folders.any (fun f => decide (f.path = absolutePath))
      || decide (absolutePath = st.folderCollectionName) then
    .ok { st with currentWorkingDirectory := absolutePath }
  else
    .error (.folderNotFound absolutePath)

/-- The deleteFile method: rejects naming the path when no record has the
given metadata.path, and otherwise deletes every version record sharing
it. -/
def deleteFile (st : TreeState) (filePath : String) :
    Except TreeError TreeState :=
  if st.files.all (fun r => !(hasPath r filePath)) then
    .error (.fileNotFound filePath)
  else
    .ok { st with files := st.files.filter (fun r => !(hasPath r filePath)) }

/-- The per-file loop of deleteFolder: for each enumerated latest record it
calls deleteFile on the record's metadata.path value, which removes every
record whose metadata.path field holds the same value. -/
def deleteFolderFilesLoop : TreeState → List FileRecord →
    Except TreeError TreeState
  | st, [] => .ok st
  | st, f :: rest =>
    let v := mGet f.metadata "path"
    if st.files.all (fun r => decide (mGet r.metadata "path" ≠ v)) then
      .error (.fileNotFound (jsConcatField v))
    else
      deleteFolderFilesLoop
        { st with files :=
            st.files.filter (fun r => decide (mGet r.metadata "path" ≠ v)) }
        rest

/-- The deleteFolder method: rejects when the current working directory
matches the folder path as an unanchored pattern and the path is not the
root; rejects naming the path when the folder is absent and not the root;
otherwise deletes all versions of every latest file whose
metadata.parentDirectory matches RegExp("^" + folderPath), deletes every
folder document whose parentDirectory matches that pattern, and finally
deletes the folder document at the path itself when it is not the root. -/
def deleteFolder (st : TreeState) (folderPath : String) :
    Except TreeError TreeState :=
  if strIncludes st.currentWorkingDirectory folderPath
      && decide (folderPath ≠ st.folderCollectionName) then
    .error (.cannotDeleteCWD st.currentWorkingDirectory)
  else if st.folders.all (fun f => decide (f.path ≠ folderPath))
      && decide (folderPath ≠ st.folderCollectionName) then
    .error (.folderNotFound folderPath)
  else
    match deleteFolderFilesLoop st (latestFilesUnderRaw st.files folderPath)
      with
    | .error e => .error e
    | .ok st1 =>
      let folders1 := st1.folders.filter
        (fun f => !(strHasPref folderPath f.parentDirectory))
      let folders2 :=
        if decide (folderPath ≠ st.folderCollectionName) then
          removeFirstMatching (fun f => decide (f.path = folderPath)) folders1
        else folders1
      .ok { st1 with folders := folders2 }

/-- The separator-bounded subtree rule as the specification states it, for
comparison with the source's raw anchored pattern: a location with parent
path s is under P when s equals P or begins with P followed by the path
separator. -/
def segUnder (p s : String) : Bool :=
  decide (s = p) || strHasPref (p ++ "/") s

/-- The specification's segment-bounded counterpart of the bucket query
shared by downloadFolder and deleteFolder. -/
def latestFilesUnderSeg (files : List FileRecord) (folderPath : String) :
    List FileRecord :=
  files.filter (fun r =>
    isLatestTrue r &&
    (match mGet r.metadata "parentDirectory" with
     | some (.vStr s) => segUnder folderPath s
     | _ => false))

/-- Absence of the reserved metadata keys from a custom-metadata object. -/
def noReserved (m : Metadata) : Bool :=
  m.all (fun kv => decide (kv.1 ≠ "path") && decide (kv.1 ≠ "parentDirectory")
    && decide (kv.1 ≠ "isLatest"))

/-- A namespace with root r holding sibling folders r/a and r/a2 and one
latest file inside r/a2. -/
def stC1 : TreeState :=
  ⟨"r", "r", [⟨0, "a", "r/a", "r"⟩, ⟨1, "a2", "r/a2", "r"⟩],
   [⟨2, "x.txt", [("parentDirectory", .vStr "r/a2"),
     ("path", .vStr "r/a2/x.txt"), ("isLatest", .vBool true)]⟩], 3⟩

/-- A namespace with root r holding folder r/B and its child folder
r/B/C. -/
def stC3 : TreeState :=
  ⟨"r", "r", [⟨0, "B", "r/B", "r"⟩, ⟨1, "C", "r/B/C", "r/B"⟩], [], 2⟩

/-- A namespace with root r, one folder r/abc, and the current working
directory set to r/abc. -/
def stC4 : TreeState :=
  ⟨"r", "r/abc", [⟨0, "abc", "r/abc", "r"⟩], [], 1⟩

/-- A namespace with root r, one folder r/sub, and the current working
directory set to r/sub. -/
def stC5 : TreeState :=
  ⟨"r", "r/sub", [⟨0, "sub", "r/sub", "r"⟩], [], 1⟩

/-- A namespace with root r and a single latest file record at r/a.txt. -/
def stC8 : TreeState :=
  ⟨"r", "r", [],
   [⟨0, "a.txt", [("parentDirectory", .vStr "r"),
     ("path", .vStr "r/a.txt"), ("isLatest", .vBool true)]⟩], 1⟩

/-- A namespace with root r, one folder r/x, and two versions of the file
r/f.txt, the first of which is the latest; used to instantiate the
hypothesis-bearing theorems at concrete inputs. -/
def stW : TreeState :=
  ⟨"r", "r", [⟨0, "x", "r/x", "r"⟩],
   [⟨1, "f.txt", [("parentDirectory", .vStr "r"),
     ("path", .vStr "r/f.txt"), ("isLatest", .vBool true)]⟩,
    ⟨2, "f.txt", [("parentDirectory", .vStr "r"),
     ("path", .vStr "r/f.txt"), ("isLatest", .vBool false)]⟩], 3⟩

/-- An empty namespace with root r. -/
def stEmpty : TreeState := ⟨"r", "r", [], [], 0⟩

theorem mGet_mSet_self (m : Metadata) (k : String) (v : JsValue) :
    mGet (mSet m k v) k = some v := by
  induction m with
  | nil => simp [mSet, mGet]
  | cons kv rest ih =>
    by_cases h : kv.1 = k
    · simp [mSet, h, mGet]
    · simp [mSet, h, mGet, ih]

theorem mGet_mSet_ne (m : Metadata) (k k' : String) (v : JsValue)
    (h : k' ≠ k) : mGet (mSet m k v) k' = mGet m k' := by
  induction m with
  | nil => simp [mSet, mGet, Ne.symm h]
  | cons kv rest ih =>
    by_cases hkv : kv.1 = k
    · simp [mSet, hkv, mGet, Ne.symm h]
    · by_cases hkv' : kv.1 = k'
      · simp [mSet, hkv, mGet, hkv', h]
      · simp [mSet, hkv, mGet, hkv', ih]

theorem mGet_spreadInto (custom : Metadata) :
    ∀ (base : Metadata) (k : String), (∀ kv ∈ custom, kv.1 ≠ k) →
      mGet (spreadInto base custom) k = mGet base k := by
  induction custom with
  | nil => intro base k _; rfl
  | cons kv rest ih =>
    intro base k h
    have h1 : kv.1 ≠ k := h kv (by simp)
    have h2 : ∀ x ∈ rest, x.1 ≠ k := fun x hx => h x (by simp [hx])
    show mGet (spreadInto (mSet base kv.1 kv.2) rest) k = mGet base k
    rw [ih _ _ h2, mGet_mSet_ne _ _ _ _ (Ne.symm h1)]

theorem noReserved_spec (m : Metadata) (h : noReserved m = true) :
    ∀ kv ∈ m, kv.1 ≠ "path" ∧ kv.1 ≠ "parentDirectory" ∧
      kv.1 ≠ "isLatest" := by
  intro kv hkv
  have hh := List.all_eq_true.mp h kv hkv
  simp only [Bool.and_eq_true, decide_eq_true_eq] at hh
  exact ⟨hh.1.1, hh.1.2, hh.2⟩

theorem hasPath_demoteRec (r : FileRecord) (p : String) :
    hasPath (demoteRec r) p = hasPath r p := by
  unfold hasPath demoteRec
  rw [mGet_mSet_ne _ _ _ _ (by decide : ("path" : String) ≠ "isLatest")]

theorem isLatest_demoteRec (r : FileRecord) :
    isLatestTrue (demoteRec r) = false := by
  unfold isLatestTrue demoteRec
  rw [mGet_mSet_self]
  rfl

theorem demoteFirstLatest_eq_of_none (p : String) :
    ∀ files : List FileRecord, (∀ r ∈ files, hasPath r p = false) →
      demoteFirstLatest files p = files := by
  intro files
  induction files with
  | nil => intro _; rfl
  | cons f fs ih =>
    intro h
    have hf := h f (by simp)
    show (if hasPath f p && isLatestTrue f then demoteRec f :: fs
      else f :: demoteFirstLatest fs p) = f :: fs
    rw [hf]
    simp only [Bool.false_and, if_false, Bool.false_eq_true, ite_false]
    rw [ih (fun r hr => h r (by simp [hr]))]

theorem demote_filter_split (p : String) :
    ∀ (files rs : List FileRecord) (r : FileRecord),
      files.filter (atPath p) = rs ++ [r] →
      (∀ x ∈ rs, isLatestTrue x = false) →
      isLatestTrue r = true →
      (demoteFirstLatest files p).filter (atPath p)
        = rs ++ [demoteRec r] := by
  intro files
  induction files with
  | nil =>
    intro rs r h _ _
    exact absurd h (by simp)
  | cons f fs ih =>
    intro rs r hsplit hrs hr
    by_cases hfp : atPath p f = true
    · rw [List.filter_cons_of_pos hfp] at hsplit
      have hfp' : hasPath f p = true := hfp
      by_cases hfl : isLatestTrue f = true
      · have hcond : (hasPath f p && isLatestTrue f) = true := by
          rw [hfp', hfl]; rfl
        cases rs with
        | nil =>
          simp only [List.nil_append, List.cons.injEq] at hsplit
          obtain ⟨hfr, hfs⟩ := hsplit
          subst hfr
          show (if hasPath f p && isLatestTrue f then demoteRec f :: fs
            else f :: demoteFirstLatest fs p).filter (atPath p)
              = [demoteRec f]
          have hdp : atPath p (demoteRec f) = true := by
            show hasPath (demoteRec f) p = true
            rw [hasPath_demoteRec]; exact hfp'
          rw [if_pos hcond, List.filter_cons_of_pos hdp, hfs]
        | cons a rs' =>
          simp only [List.cons_append, List.cons.injEq] at hsplit
          obtain ⟨hfa, _⟩ := hsplit
          have hfa' := hrs a (by simp)
          rw [hfa] at hfl
          rw [hfl] at hfa'
          cases hfa'
      · have hcond : (hasPath f p && isLatestTrue f) = false := by
          rw [Bool.not_eq_true] at hfl
          rw [hfl]; simp
        cases rs with
        | nil =>
          simp only [List.nil_append, List.cons.injEq] at hsplit
          obtain ⟨hfr, _⟩ := hsplit
          rw [← hfr] at hr
          exact absurd hr hfl
        | cons a rs' =>
          simp only [List.cons_append, List.cons.injEq] at hsplit
          obtain ⟨hfa, hrest⟩ := hsplit
          show (if hasPath f p && isLatestTrue f then demoteRec f :: fs
            else f :: demoteFirstLatest fs p).filter (atPath p)
              = a :: rs' ++ [demoteRec r]
          rw [if_neg (by rw [hcond]; exact Bool.false_ne_true),
            List.filter_cons_of_pos hfp,
            ih rs' r hrest (fun x hx => hrs x (by simp [hx])) hr, hfa]
          rfl
    · rw [List.filter_cons_of_neg hfp] at hsplit
      have hfp' : hasPath f p = false := Bool.eq_false_iff.mpr hfp
      show (if hasPath f p && isLatestTrue f then demoteRec f :: fs
        else f :: demoteFirstLatest fs p).filter (atPath p)
          = rs ++ [demoteRec r]
      rw [if_neg (by rw [hfp']; simp),
        List.filter_cons_of_neg hfp,
        ih rs r hsplit hrs hr]

theorem spread_base_path (cwd path : String) (custom : Metadata)
    (h : noReserved custom = true) :
    mGet (spreadInto (baseUploadMetadata cwd path) custom) "path"
      = some (.vStr path) := by
  rw [mGet_spreadInto custom _ _
    (fun kv hkv => (noReserved_spec custom h kv hkv).1)]
  rfl

theorem spread_base_isLatest (cwd path : String) (custom : Metadata)
    (h : noReserved custom = true) :
    mGet (spreadInto (baseUploadMetadata cwd path) custom) "isLatest"
      = some (.vBool true) := by
  rw [mGet_spreadInto custom _ _
    (fun kv hkv => (noReserved_spec custom h kv hkv).2.2)]
  rfl

theorem uploadNewRec_hasPath (i : Nat) (nm cwd p : String)
    (custom : Metadata) (h : noReserved custom = true) :
    atPath p ⟨i, nm, spreadInto (baseUploadMetadata cwd p) custom⟩
      = true := by
  show decide (mGet (spreadInto (baseUploadMetadata cwd p) custom) "path"
    = some (.vStr p)) = true
  rw [spread_base_path cwd p custom h]
  simp

theorem uploadNewRec_isLatest (i : Nat) (nm cwd p : String)
    (custom : Metadata) (h : noReserved custom = true) :
    isLatestTrue ⟨i, nm, spreadInto (baseUploadMetadata cwd p) custom⟩
      = true := by
  show decide (mGet (spreadInto (baseUploadMetadata cwd p) custom) "isLatest"
    = some (.vBool true)) = true
  rw [spread_base_isLatest cwd p custom h]
  simp

theorem uploadFile_ok (st : TreeState) (o : FileOptions)
    (hn : o.name ≠ "") (hc : o.chunkSize ≠ 0)
    (hv : firstForbidden o.name = none) :
    uploadFile st o = .ok
      ({ st with
          files := demoteFirstLatest st.files
              (st.currentWorkingDirectory ++ "/" ++ o.name)
            ++ [⟨st.nextId, o.name,
              spreadInto (baseUploadMetadata st.currentWorkingDirectory
                (st.currentWorkingDirectory ++ "/" ++ o.name))
                o.customMetadata⟩],
          nextId := st.nextId + 1 }, st.nextId) := by
  unfold uploadFile
  rw [if_neg (by simp [hn]), if_neg (by simp [hc]), hv]

theorem uploadSeq_inv (name : String) (hname : name ≠ "")
    (hvalid : firstForbidden name = none) :
    ∀ (opts : List FileOptions) (st : TreeState) (p : String)
      (rs : List FileRecord) (r : FileRecord),
      (∀ o ∈ opts, o.name = name ∧ o.chunkSize ≠ 0 ∧
        noReserved o.customMetadata = true) →
      st.currentWorkingDirectory ++ "/" ++ name = p →
      st.files.filter (atPath p) = rs ++ [r] →
      (∀ x ∈ rs, isLatestTrue x = false) →
      isLatestTrue r = true →
      ∃ st' rs' r', uploadSeq st opts = .ok st' ∧
        st'.currentWorkingDirectory = st.currentWorkingDirectory ∧
        st'.files.filter (atPath p) = rs' ++ [r'] ∧
        (∀ x ∈ rs', isLatestTrue x = false) ∧ isLatestTrue r' = true ∧
        rs'.length = rs.length + opts.length := by
  intro opts
  induction opts with
  | nil =>
    intro st p rs r _ _ hsplit hrs hr
    exact ⟨st, rs, r, rfl, rfl, hsplit, hrs, hr, by simp⟩
  | cons o os ih =>
    intro st p rs r hall hp hsplit hrs hr
    obtain ⟨hon, hoc, hom⟩ := hall o (List.mem_cons_self o os)
    have hn' : o.name ≠ "" := by rw [hon]; exact hname
    have hv' : firstForbidden o.name = none := by rw [hon]; exact hvalid
    have hup := uploadFile_ok st o hn' hoc hv'
    have hpp : st.currentWorkingDirectory ++ "/" ++ o.name = p := by
      rw [hon]; exact hp
    rw [hpp] at hup
    have hstep : uploadSeq st (o :: os) = uploadSeq
        ({ st with
            files := demoteFirstLatest st.files p
              ++ [⟨st.nextId, o.name,
                spreadInto (baseUploadMetadata st.currentWorkingDirectory p)
                  o.customMetadata⟩],
            nextId := st.nextId + 1 }) os := by
      show (match uploadFile st o with
        | Except.error e => Except.error e
        | Except.ok (st1, _) => uploadSeq st1 os) = _
      rw [hup]
    obtain ⟨st', rs', r', hseq, hcwd, hsplit', hrs', hr', hlen⟩ :=
      ih ({ st with
          files := demoteFirstLatest st.files p
            ++ [⟨st.nextId, o.name,
              spreadInto (baseUploadMetadata st.currentWorkingDirectory p)
                o.customMetadata⟩],
          nextId := st.nextId + 1 }) p (rs ++ [demoteRec r])
        (⟨st.nextId, o.name,
          spreadInto (baseUploadMetadata st.currentWorkingDirectory p)
            o.customMetadata⟩)
        (fun o' ho' => hall o' (List.mem_cons_of_mem _ ho'))
        hp
        (by
          show (demoteFirstLatest st.files p
            ++ [(⟨st.nextId, o.name,
              spreadInto (baseUploadMetadata st.currentWorkingDirectory p)
                o.customMetadata⟩ : FileRecord)]).filter (atPath p) = _
          rw [List.filter_append,
            demote_filter_split p st.files rs r hsplit hrs hr,
            List.filter_cons_of_pos
              (uploadNewRec_hasPath st.nextId o.name
                st.currentWorkingDirectory p o.customMetadata hom),
            List.filter_nil])
        (by
          intro x hx
          rcases List.mem_append.mp hx with hx1 | hx1
          · exact hrs x hx1
          · have hx2 : x = demoteRec r := List.mem_singleton.mp hx1
            rw [hx2]
            exact isLatest_demoteRec r)
        (uploadNewRec_isLatest st.nextId o.name
          st.currentWorkingDirectory p o.customMetadata hom)
    refine ⟨st', rs', r', ?_, hcwd, hsplit', hrs', hr', ?_⟩
    · rw [hstep]; exact hseq
    · simp only [List.length_append, List.length_cons, List.length_nil,
        List.length_singleton] at hlen ⊢
      omega

/-- Claim C2: starting from a namespace holding no record at the target
path, any nonempty sequence of completed uploadFile calls sharing one valid
file name leaves the version records at that path forming a list in which
exactly the last record, the one inserted by the most recent upload, has
isLatest true, every earlier version has isLatest false, and the number of
records equals the number of uploads. -/
theorem claim_C2_single_latest_after_uploads (st : TreeState)
    (opts : List FileOptions) (name : String)
    (hne : opts ≠ [])
    (hall : ∀ o ∈ opts, o.name = name ∧ o.chunkSize ≠ 0 ∧
      noReserved o.customMetadata = true)
    (hname : name ≠ "") (hvalid : firstForbidden name = none)
    (h0 : st.files.filter
      (atPath (st.currentWorkingDirectory ++ "/" ++ name)) = []) :
    ∃ st' rs r, uploadSeq st opts = .ok st' ∧
      st'.files.filter (atPath (st.currentWorkingDirectory ++ "/" ++ name))
        = rs ++ [r] ∧
      isLatestTrue r = true ∧ (∀ x ∈ rs, isLatestTrue x = false) ∧
      rs.length + 1 = opts.length := by
  cases opts with
  | nil => exact absurd rfl hne
  | cons o os =>
    obtain ⟨hon, hoc, hom⟩ := hall o (List.mem_cons_self o os)
    have hn' : o.name ≠ "" := by rw [hon]; exact hname
    have hv' : firstForbidden o.name = none := by rw [hon]; exact hvalid
    have hup := uploadFile_ok st o hn' hoc hv'
    have hpp : st.currentWorkingDirectory ++ "/" ++ o.name
        = st.currentWorkingDirectory ++ "/" ++ name := by rw [hon]
    rw [hpp] at hup
    have hdem : demoteFirstLatest st.files
        (st.currentWorkingDirectory ++ "/" ++ name) = st.files :=
      demoteFirstLatest_eq_of_none _ st.files (fun x hx =>
        Bool.eq_false_iff.mpr (List.filter_eq_nil_iff.mp h0 x hx))
    rw [hdem] at hup
    have hstep : uploadSeq st (o :: os) = uploadSeq
        ({ st with
            files := st.files
              ++ [⟨st.nextId, o.name,
                spreadInto (baseUploadMetadata st.currentWorkingDirectory
                  (st.currentWorkingDirectory ++ "/" ++ name))
                  o.customMetadata⟩],
            nextId := st.nextId + 1 }) os := by
      show (match uploadFile st o with
        | Except.error e => Except.error e
        | Except.ok (st1, _) => uploadSeq st1 os) = _
      rw [hup]
    obtain ⟨st', rs', r', hseq, _, hsplit', hrs', hr', hlen⟩ :=
      uploadSeq_inv name hname hvalid os
        ({ st with
            files := st.files
              ++ [⟨st.nextId, o.name,
                spreadInto (baseUploadMetadata st.currentWorkingDirectory
                  (st.currentWorkingDirectory ++ "/" ++ name))
                  o.customMetadata⟩],
            nextId := st.nextId + 1 })
        (st.currentWorkingDirectory ++ "/" ++ name) []
        (⟨st.nextId, o.name,
          spreadInto (baseUploadMetadata st.currentWorkingDirectory
            (st.currentWorkingDirectory ++ "/" ++ name))
            o.customMetadata⟩)
        (fun o' ho' => hall o' (List.mem_cons_of_mem _ ho'))
        rfl
        (by
          show (st.files ++ [_]).filter _ = _
          rw [List.filter_append, h0,
            List.filter_cons_of_pos
              (uploadNewRec_hasPath st.nextId o.name
                st.currentWorkingDirectory
                (st.currentWorkingDirectory ++ "/" ++ name)
                o.customMetadata hom),
            List.filter_nil, List.nil_append])
        (by intro x hx; cases hx)
        (uploadNewRec_isLatest st.nextId o.name
          st.currentWorkingDirectory
          (st.currentWorkingDirectory ++ "/" ++ name) o.customMetadata hom)
    refine ⟨st', rs', r', ?_, hsplit', hr', hrs', ?_⟩
    · rw [hstep]; exact hseq
    · simp only [List.length_nil, List.length_cons] at hlen ⊢
      omega

/-- Witness for claim C2: two uploads of the file a into the empty
namespace with root r leave two records at r/a of which exactly the second
is latest. -/
theorem claim_C2_witness :
    ∃ st' rs r,
      uploadSeq stEmpty [⟨"a", 1, []⟩, ⟨"a", 1, []⟩] = .ok st' ∧
      st'.files.filter
        (atPath (stEmpty.currentWorkingDirectory ++ "/" ++ "a"))
        = rs ++ [r] ∧
      isLatestTrue r = true ∧ (∀ x ∈ rs, isLatestTrue x = false) ∧
      rs.length + 1 = ([⟨"a", 1, []⟩, ⟨"a", 1, []⟩] :
        List FileOptions).length :=
  claim_C2_single_latest_after_uploads stEmpty
    [⟨"a", 1, []⟩, ⟨"a", 1, []⟩] "a" (by decide) (by decide) (by decide)
    (by decide) (by decide)

/-- Claim C1: the subtree enumeration shared by downloadFolder, the rename
cascade and deleteFolder is claimed to be a segment-bounded prefix match
that never selects a sibling such as r/a2 when enumerating r/a.  The code
anchors the pattern only at the start of the string, so the latest file
whose parentDirectory is r/a2 is enumerated under r/a: deleteFolder of r/a
deletes it, and changeFolderName of r/a to b rewrites its path to
r/b2/x.txt, while the specification's segment-bounded rule selects no file
at all. -/
theorem claim_C1_subtree_enumeration_not_segment_bounded :
    latestFilesUnderRaw stC1.files "r/a" =
      [⟨2, "x.txt", [("parentDirectory", .vStr "r/a2"),
        ("path", .vStr "r/a2/x.txt"), ("isLatest", .vBool true)]⟩] ∧
    latestFilesUnderSeg stC1.files "r/a" = [] ∧
    deleteFolder stC1 "r/a" =
      .ok ⟨"r", "r", [⟨1, "a2", "r/a2", "r"⟩], [], 3⟩ ∧
    changeFolderName stC1 "b" "r/a" = .ok ⟨"r", "r",
      [⟨0, "b", "r/b", "r"⟩, ⟨1, "a2", "r/a2", "r"⟩],
      [⟨2, "x.txt", [("parentDirectory", .vStr "r/b2"),
        ("path", .vStr "r/b2/x.txt"), ("isLatest", .vBool true)]⟩], 3⟩ :=
  ⟨rfl, rfl, rfl, rfl⟩

/-- Claim C3: after renaming folder r/B to B2, the claim says the child
folder r/B/C keeps name C with path r/B2/C.  The cascading update of the
code sets the name of every matched descendant to the new name, so the
child ends with name B2 and path r/B2/C, violating the invariant that path
equals parentDirectory, separator, name. -/
theorem claim_C3_descendant_keeps_wrong_name :
    changeFolderName stC3 "B2" "r/B" = .ok ⟨"r", "r",
      [⟨0, "B2", "r/B2", "r"⟩, ⟨1, "B2", "r/B2/C", "r/B2"⟩], [], 2⟩ ∧
    "r/B2" ++ "/" ++ "B2" ≠ "r/B2/C" :=
  ⟨rfl, by decide⟩

/-- Claim C4: deleteFolder is claimed to raise the cannot-delete-CWD error
only for a segment-bounded ancestor or self of the current working
directory.  The code tests the folder path as an unanchored pattern against
the working directory, so deleting the path b, which is a mere substring of
the working directory r/abc and not an ancestor by the segment rule, is
rejected with the cannot-delete-CWD error. -/
theorem claim_C4_cwd_guard_fires_on_substring :
    deleteFolder stC4 "b" = .error (.cannotDeleteCWD "r/abc") ∧
    segUnder "b" "r/abc" = false ∧ "b" ≠ "r" :=
  ⟨rfl, by decide, by decide⟩

/-- Claim C5: deleteFolder of a non-existent, non-root path is claimed to
always fail with the not-found error.  The unanchored working-directory
guard runs first, so for the non-existent path r/su, a substring of the
working directory r/sub, the call fails with the cannot-delete-CWD error
instead. -/
theorem claim_C5_missing_folder_wrong_error :
    deleteFolder stC5 "r/su" = .error (.cannotDeleteCWD "r/sub") ∧
    stC5.folders.all (fun f => decide (f.path ≠ "r/su")) = true ∧
    "r/su" ≠ "r" :=
  ⟨rfl, by decide, by decide⟩

/-- Claim C8: changeFileMetadata is claimed to reject an upsert holding a
reserved key regardless of the assigned value.  The guards test JavaScript
truthiness of the value, so an upsert assigning false to isLatest, or the
empty string to path, passes the guards and the update is performed,
clearing the latest marker or the stored path of the record. -/
theorem claim_C8_reserved_keys_pass_on_falsy_values :
    changeFileMetadata stC8 "r/a.txt" (some [("isLatest", .vBool false)])
      none false = .ok ⟨"r", "r", [],
      [⟨0, "a.txt", [("parentDirectory", .vStr "r"),
        ("path", .vStr "r/a.txt"), ("isLatest", .vBool false)]⟩], 1⟩ ∧
    changeFileMetadata stC8 "r/a.txt" (some [("path", .vStr "")])
      none false = .ok ⟨"r", "r", [],
      [⟨0, "a.txt", [("parentDirectory", .vStr "r"),
        ("path", .vStr ""), ("isLatest", .vBool true)]⟩], 1⟩ :=
  ⟨rfl, rfl⟩

/-- Claim C9: for a valid folder name, when no folder occupies the target
path, createFolder followed by changeDirectory of the name relative to the
current working directory succeeds and leaves the working directory equal
to the old one extended by the separator and the name. -/
theorem claim_C9_create_then_cd (st : TreeState) (name : String)
    (hvalid : firstForbidden name = none)
    (hnf : st.folders.any (fun f =>
      decide (f.path = st.currentWorkingDirectory ++ "/" ++ name))
      = false) :
    ∃ st1 fid st2, createFolder st name = .ok (st1, fid) ∧
      changeDirectory st1 name true = .ok st2 ∧
      st2.currentWorkingDirectory
        = st.currentWorkingDirectory ++ "/" ++ name := by
  refine ⟨{ st with
      folders := st.folders ++ [⟨st.nextId, name,
        st.currentWorkingDirectory ++ "/" ++ name,
        st.currentWorkingDirectory⟩],
      nextId := st.nextId + 1 }, st.nextId,
    ⟨st.folderCollectionName, st.currentWorkingDirectory ++ "/" ++ name,
      st.folders ++ [⟨st.nextId, name,
        st.currentWorkingDirectory ++ "/" ++ name,
        st.currentWorkingDirectory⟩], st.files, st.nextId + 1⟩,
    ?_, ?_, rfl⟩
  · simp only [createFolder]
    rw [if_neg (by rw [hnf]; exact Bool.false_ne_true), hvalid]
  · simp only [changeDirectory, if_true]
    rw [if_pos]
    rw [List.any_append]
    simp

/-- Witness for claim C9: creating folder sub in the namespace stW and
then changing directory to it relatively moves the working directory to
r/sub. -/
theorem claim_C9_witness :
    ∃ st1 fid st2, createFolder stW "sub" = .ok (st1, fid) ∧
      changeDirectory st1 "sub" true = .ok st2 ∧
      st2.currentWorkingDirectory
        = stW.currentWorkingDirectory ++ "/" ++ "sub" :=
  claim_C9_create_then_cd stW "sub" (by decide) (by decide)

/-- Claim C10: getFileReadStream rejects with the not-found error naming
the requested path exactly when no record at that path is marked latest;
otherwise it resolves with a record of the collection that is at the path
and marked latest, never a non-latest version.  The operation only reads
the bucket, which its state-free result type records. -/
theorem claim_C10_read_stream_latest (st : TreeState) (fp : String) :
    (getFileReadStream st fp = .error (.fileNotFound fp) ↔
      ∀ r ∈ st.files, ¬(hasPath r fp = true ∧ isLatestTrue r = true)) ∧
    (∀ r', getFileReadStream st fp = .ok r' →
      r' ∈ st.files ∧ hasPath r' fp = true ∧ isLatestTrue r' = true) := by
  unfold getFileReadStream
  cases hfind : st.files.find? (fun r => hasPath r fp && isLatestTrue r)
    with
  | none =>
    constructor
    · constructor
      · intro _ r hr
        have hh := List.find?_eq_none.mp hfind r hr
        simp only [Bool.and_eq_true] at hh
        tauto
      · intro _; rfl
    · intro r' h; cases h
  | some r =>
    constructor
    · constructor
      · intro h; cases h
      · intro hall
        exfalso
        have hmem := List.mem_of_find?_eq_some hfind
        have hp := List.find?_some hfind
        simp only [Bool.and_eq_true] at hp
        exact hall r hmem ⟨hp.1, hp.2⟩
    · intro r' h
      cases h
      have hmem := List.mem_of_find?_eq_some hfind
      have hp := List.find?_some hfind
      simp only [Bool.and_eq_true] at hp
      exact ⟨hmem, hp.1, hp.2⟩

/-- Witness for claim C10: in the namespace stW the read stream of
r/f.txt is the first version record, which is at the path and latest. -/
theorem claim_C10_witness :
    (⟨1, "f.txt", [("parentDirectory", .vStr "r"),
      ("path", .vStr "r/f.txt"), ("isLatest", .vBool true)]⟩ : FileRecord)
      ∈ stW.files ∧
    hasPath ⟨1, "f.txt", [("parentDirectory", .vStr "r"),
      ("path", .vStr "r/f.txt"), ("isLatest", .vBool true)]⟩ "r/f.txt"
      = true ∧
    isLatestTrue ⟨1, "f.txt", [("parentDirectory", .vStr "r"),
      ("path", .vStr "r/f.txt"), ("isLatest", .vBool true)]⟩ = true :=
  (claim_C10_read_stream_latest stW "r/f.txt").2 _ rfl

/-- Claim C7: changeFileName fails with the not-found error when no record
has the given path; otherwise, for a valid new name, it rewrites
metadata.path and filename on every version record sharing the old path,
to the shared parent directory extended by the separator and the new name,
and leaves parentDirectory and every other record untouched. -/
theorem claim_C7_rename_rewrites_every_version (st : TreeState)
    (newName filePath pd : String)
    (hne : (st.files.filter (fun r => hasPath r filePath)).isEmpty = false)
    (hvalid : firstForbidden newName = none)
    (hpd : ∀ r ∈ st.files, hasPath r filePath = true →
      mGet r.metadata "parentDirectory" = some (.vStr pd)) :
    changeFileName st newName filePath = .ok { st with
      files := st.files.map (fun r =>
        if hasPath r filePath then
          { r with filename := newName,
                   metadata := mSet r.metadata "path"
                     (.vStr (pd ++ "/" ++ newName)) }
        else r) } ∧
    (∀ st2 nn fp2,
      (st2.files.filter (fun r => hasPath r fp2)).isEmpty = true →
      changeFileName st2 nn fp2 = .error (.fileNotFound fp2)) := by
  constructor
  · have hnil : st.files.filter (fun r => hasPath r filePath) ≠ [] := by
      intro hh
      rw [hh] at hne
      cases hne
    obtain ⟨r0, rest, hcons⟩ := List.exists_cons_of_ne_nil hnil
    have hr0mem : r0 ∈ st.files.filter (fun r => hasPath r filePath) := by
      rw [hcons]
      exact List.mem_cons_self _ _
    have hr0 := List.mem_filter.mp hr0mem
    simp only [changeFileName]
    rw [if_neg (by rw [hne]; exact Bool.false_ne_true), hvalid, hcons]
    simp only [List.head?_cons, Option.some_bind,
      hpd r0 hr0.1 (by simpa using hr0.2)]
    rfl
  · intro st2 nn fp2 h
    simp only [changeFileName]
    rw [if_pos h]

/-- Witness for claim C7: renaming r/f.txt to g.txt in the namespace stW
rewrites both version records and leaves the folder collection alone. -/
theorem claim_C7_witness :
    changeFileName stW "g.txt" "r/f.txt" = .ok { stW with
      files := stW.files.map (fun r =>
        if hasPath r "r/f.txt" then
          { r with filename := "g.txt",
                   metadata := mSet r.metadata "path"
                     (.vStr ("r" ++ "/" ++ "g.txt")) }
        else r) } :=
  (claim_C7_rename_rewrites_every_version stW "g.txt" "r/f.txt" "r"
    (by decide) (by decide) (by decide)).1

theorem firstForbidden_split (s : String) (c : Char)
    (h : firstForbidden s = some c) :
    isForbiddenChar c = true ∧ ∃ pre post, s.toList = pre ++ c :: post ∧
      ∀ x ∈ pre, isForbiddenChar x = false := by
  have main : ∀ (l : List Char), l.find? isForbiddenChar = some c →
      isForbiddenChar c = true ∧ ∃ pre post, l = pre ++ c :: post ∧
        ∀ x ∈ pre, isForbiddenChar x = false := by
    intro l
    induction l with
    | nil => intro hh; cases hh
    | cons a l ih =>
      intro hh
      by_cases ha : isForbiddenChar a = true
      · rw [List.find?_cons_of_pos _ ha] at hh
        cases hh
        exact ⟨ha, [], l, rfl, by intro x hx; cases hx⟩
      · rw [List.find?_cons_of_neg _ ha] at hh
        obtain ⟨hcf, pre, post, heq, hpre⟩ := ih hh
        refine ⟨hcf, a :: pre, post, by rw [heq]; rfl, ?_⟩
        intro x hx
        rcases List.mem_cons.mp hx with hx1 | hx1
        · rw [hx1]
          exact Bool.eq_false_iff.mpr ha
        · exact hpre x hx1
  exact main s.toList h

/-- Claim C6: with the guards preceding the character check satisfied, a
name holding a forbidden character makes createFolder, uploadFile,
changeFileName and changeFolderName all reject with the invalid-character
error naming exactly the first forbidden character found by the
left-to-right scan, and a name free of forbidden characters is never
rejected by this check in any of the four methods. -/
theorem claim_C6_first_forbidden_char_rejection (st : TreeState)
    (name fp fpath : String) (opts : FileOptions) (tf : Folder) (c : Char)
    (hc : firstForbidden name = some c)
    (hcf : st.folders.any (fun f =>
      decide (f.path = st.currentWorkingDirectory ++ "/" ++ name)) = false)
    (hopts : opts.name = name) (hcs : opts.chunkSize ≠ 0)
    (hfe : (st.files.filter (fun r => hasPath r fp)).isEmpty = false)
    (hroot : fpath ≠ st.folderCollectionName)
    (htf : st.folders.find? (fun f => decide (f.path = fpath)) = some tf)
    (hcoll : st.folders.any (fun f =>
      decide (f.path = tf.parentDirectory ++ "/" ++ name)) = false) :
    createFolder st name = .error (.invalidChar c) ∧
    uploadFile st opts = .error (.invalidChar c) ∧
    changeFileName st name fp = .error (.invalidChar c) ∧
    changeFolderName st name fpath = .error (.invalidChar c) ∧
    (isForbiddenChar c = true ∧ ∃ pre post, name.toList = pre ++ c :: post ∧
      ∀ x ∈ pre, isForbiddenChar x = false) ∧
    (∀ st2 s, firstForbidden s = none →
      (∀ c2, createFolder st2 s ≠ .error (.invalidChar c2)) ∧
      (∀ o c2, o.name = s → uploadFile st2 o ≠ .error (.invalidChar c2)) ∧
      (∀ fp2 c2, changeFileName st2 s fp2 ≠ .error (.invalidChar c2)) ∧
      (∀ fp2 c2, changeFolderName st2 s fp2 ≠ .error (.invalidChar c2)))
    := by
  have hne0 : name ≠ "" := by
    intro he
    have hnone : firstForbidden "" = none := rfl
    rw [he, hnone] at hc
    cases hc
  refine ⟨?_, ?_, ?_, ?_, firstForbidden_split name c hc, ?_⟩
  · simp only [createFolder]
    rw [if_neg (by rw [hcf]; exact Bool.false_ne_true), hc]
  · simp only [uploadFile]
    rw [if_neg (by simp [hopts, hne0]), if_neg (by simp [hcs]), hopts, hc]
  · simp only [changeFileName]
    rw [if_neg (by rw [hfe]; exact Bool.false_ne_true), hc]
  · unfold changeFolderName
    rw [if_neg (by simp [hroot]), htf]
    simp [hcoll, hc]
  · intro st2 s hs
    refine ⟨?_, ?_, ?_, ?_⟩
    · intro c2 h
      simp only [createFolder] at h
      split at h
      · simp at h
      · rw [hs] at h
        simp at h
    · intro o c2 ho h
      simp only [uploadFile] at h
      split at h
      · simp at h
      · split at h
        · simp at h
        · rw [ho, hs] at h
          simp at h
    · intro fp2 c2 h
      simp only [changeFileName] at h
      split at h
      · simp at h
      · rw [hs] at h
        simp at h
    · intro fp2 c2 h
      simp only [changeFolderName] at h
      split at h
      · simp at h
      · split at h
        · simp at h
        · split at h
          · simp at h
          · rw [hs] at h
            simp at h

/-- Witness for claim C6: the name holding a space after the letter a is
rejected by createFolder on the namespace stW with the error naming the
space, the first forbidden character of the scan. -/
theorem claim_C6_witness :
    createFolder stW "a b" = .error (.invalidChar ' ') :=
  (claim_C6_first_forbidden_char_rejection stW "a b" "r/f.txt" "r/x"
    ⟨"a b", 1, []⟩ ⟨0, "x", "r/x", "r"⟩ ' '
    (by decide) (by decide) rfl (by decide) (by decide) (by decide) rfl
    (by decide)).1

end GridFSTree
